import Mathlib

/-!
Verification of the graph analysis and lowering pipeline of
`tfcoreml/_tf_coreml_converter.py` against its natural-language
specification.  The data model and the operations below are shallow
embeddings of the Python source; pieces of the repository that are not
part of the provided source tree (the topological sort and the
liveness/constant prober of `_tf_graph_transform.py`) are modelled from
the specification text and are marked as such in their doc comments.
-/

/-- Description of one output tensor of an operation: its name and its
statically declared shape.  `none` models an unknown rank; inside the
list, `none` models an unknown dimension (TensorFlow `None`). -/
structure TensorInfo where
  name : String
  declaredShape : Option (List (Option Nat))
deriving DecidableEq, Repr

/-- Operation of the TensorFlow graph: a unique name, a type tag, the
names of the tensors it consumes, and the tensors it produces. -/
structure Op where
  name : String
  type : String
  inputs : List String
  outputs : List TensorInfo
deriving DecidableEq, Repr

/-- Names of the output tensors of an operation. -/
def opOutputNames (op : Op) : List String := op.outputs.map (·.name)

/-- Lookup in a Python-style dictionary modelled as an association list
(first binding of a key wins, as `dictSet` keeps keys unique). -/
def dictGet? {α : Type} : List (String × α) → String → Option α
  | [], _ => none
  | (k, v) :: rest, key => if k == key then some v else dictGet? rest key

/-- Membership test of a key in the dictionary. -/
def dictContains {α : Type} (d : List (String × α)) (key : String) : Bool :=
  (dictGet? d key).isSome

/-- Assignment `d[key] = v` of a Python dictionary: overwrite the
binding in place when the key is present, append it otherwise. -/
def dictSet {α : Type} : List (String × α) → String → α → List (String × α)
  | [], key, v => [(key, v)]
  | (k, w) :: rest, key, v =>
    if k == key then (k, v) :: rest else (k, w) :: dictSet rest key v

theorem dictGet?_dictSet_self {α : Type} (d : List (String × α)) (k : String) (v : α) :
    dictGet? (dictSet d k v) k = some v := by
  induction d with
  | nil => simp [dictSet, dictGet?]
  | cons hd tl ih =>
    obtain ⟨k', w⟩ := hd
    by_cases h : k' = k
    · simp [dictSet, dictGet?, h]
    · simp only [dictSet, dictGet?, beq_iff_eq, if_neg h]
      exact ih

theorem dictGet?_dictSet_ne {α : Type} (d : List (String × α)) (k k' : String) (v : α)
    (h : k ≠ k') : dictGet? (dictSet d k v) k' = dictGet? d k' := by
  induction d with
  | nil => simp [dictSet, dictGet?, h]
  | cons hd tl ih =>
    obtain ⟨k'', w⟩ := hd
    by_cases h2 : k'' = k
    · subst h2
      simp [dictSet, dictGet?, h]
    · simp only [dictSet, dictGet?, beq_iff_eq, if_neg h2]
      by_cases h3 : k'' = k'
      · simp [h3]
      · simp only [if_neg h3]
        exact ih

/-! ## Topological sort (claim C7)

The sort itself lives in `_tf_graph_transform._topological_sort_ops`,
which is not among the provided source files; it is modelled from the
specification, section 4.1. -/

/-- Producer relation: `produces q p` holds when some output tensor of
`q` is an input tensor of `p`. -/
def produces (q p : Op) : Bool :=
  q.outputs.any (fun t => p.inputs.contains t.name)

/-- Scan for the first operation of the scan list that is ready, i.e.
whose inputs are produced by no operation still remaining; return it
together with the remaining list with that occurrence removed. -/
def extractReadyAux (remaining : List Op) : List Op → Option (Op × List Op)
  | [] => none
  | p :: rest =>
    if remaining.all (fun q => !(produces q p)) then some (p, remaining.erase p)
    else extractReadyAux remaining rest

/-- Modelled from the spec: core loop of the topological sort of
section 4.1 (the incremental in-degree reduction with stable
tie-breaking by declaration order), with explicit fuel.  The code of
`_tf_graph_transform._topological_sort_ops` is not under `src/`. -/
def sortAux : Nat → List Op → List Op → Except String (List Op)
  | 0, remaining, acc =>
    if remaining.isEmpty then .ok acc.reverse else .error "CyclicGraphError"
  | Nat.succ fuel, remaining, acc =>
    if remaining.isEmpty then .ok acc.reverse
    else
      match extractReadyAux remaining remaining with
      | none => .error "CyclicGraphError"
      | some (p, rest) => sortAux fuel rest (p :: acc)

/-- Modelled from the spec: `_tf_graph_transform._topological_sort_ops`
(section 4.1) — produce a linear order in which every operation follows
all producers of its inputs, and fail with `CyclicGraphError` when no
such order exists. -/
def _topological_sort_ops (ops : List Op) : Except String (List Op) :=
  sortAux ops.length ops []

/-- Path of length at least one in the producer relation, restricted to
the operations of the list `ops`. -/
inductive ProdPath (ops : List Op) : Op → Op → Prop
  | single {q p : Op} : q ∈ ops → p ∈ ops → produces q p = true → ProdPath ops q p
  | cons {q r p : Op} : q ∈ ops → produces q r = true → ProdPath ops r p → ProdPath ops q p

/-- Cycle in the producer relation of the graph. -/
def hasCycle (ops : List Op) : Prop := ∃ p, ProdPath ops p p

theorem ProdPath.mono {ops ops' : List Op} {q p : Op}
    (hsub : ∀ x ∈ ops, x ∈ ops') (h : ProdPath ops q p) : ProdPath ops' q p := by
  induction h with
  | single hq hp hprod => exact .single (hsub _ hq) (hsub _ hp) hprod
  | cons hq hprod _ ih => exact .cons (hsub _ hq) hprod ih

theorem ProdPath.left_mem {ops : List Op} {q p : Op} (h : ProdPath ops q p) : q ∈ ops := by
  cases h with
  | single hq _ _ => exact hq
  | cons hq _ _ => exact hq

theorem extractReadyAux_none {remaining : List Op} :
    ∀ {scan : List Op}, extractReadyAux remaining scan = none →
      ∀ p ∈ scan, ∃ q ∈ remaining, produces q p = true := by
  intro scan
  induction scan with
  | nil =>
    intro _ p hp
    cases hp
  | cons hd tl ih =>
    intro h p hp
    unfold extractReadyAux at h
    by_cases hr : remaining.all (fun q => !(produces q hd)) = true
    · rw [if_pos hr] at h
      cases h
    · rw [if_neg hr] at h
      rcases List.mem_cons.mp hp with rfl | hp'
      · rw [List.all_eq_true] at hr
        push_neg at hr
        obtain ⟨q, hq, hq2⟩ := hr
        refine ⟨q, hq, ?_⟩
        simpa using hq2
      · exact ih h p hp'

theorem extractReadyAux_some {remaining : List Op} :
    ∀ {scan : List Op} {p : Op} {rest : List Op},
      extractReadyAux remaining scan = some (p, rest) →
      p ∈ scan ∧ rest = remaining.erase p ∧ ∀ q ∈ remaining, produces q p = false := by
  intro scan
  induction scan with
  | nil =>
    intro p rest h
    cases h
  | cons hd tl ih =>
    intro p rest h
    unfold extractReadyAux at h
    by_cases hr : remaining.all (fun q => !(produces q hd)) = true
    · rw [if_pos hr] at h
      simp only [Option.some.injEq, Prod.mk.injEq] at h
      obtain ⟨rfl, rfl⟩ := h
      refine ⟨List.mem_cons_self _ _, rfl, ?_⟩
      intro q hq
      have := List.all_eq_true.mp hr q hq
      simpa using this
    · rw [if_neg hr] at h
      obtain ⟨hmem, hrest, hready⟩ := ih h
      exact ⟨List.mem_cons_of_mem _ hmem, hrest, hready⟩

theorem blocked_has_cycle (S : List Op) (hne : S ≠ [])
    (hblk : ∀ p ∈ S, ∃ q ∈ S, produces q p = true) : ∃ p, ProdPath S p p := by
  classical
  obtain ⟨p0, hp0⟩ : ∃ p, p ∈ S := by
    cases S with
    | nil => exact absurd rfl hne
    | cons a l => exact ⟨a, List.mem_cons_self a l⟩
  let g : Op → Op := fun p => if h : ∃ q, q ∈ S ∧ produces q p = true then h.choose else p
  have hg : ∀ p ∈ S, g p ∈ S ∧ produces (g p) p = true := by
    intro p hp
    have h : ∃ q, q ∈ S ∧ produces q p = true := by
      obtain ⟨q, hq1, hq2⟩ := hblk p hp
      exact ⟨q, hq1, hq2⟩
    simp only [g, dif_pos h]
    exact h.choose_spec
  let f : Nat → Op := fun n => g^[n] p0
  have hf : ∀ n, f n ∈ S := by
    intro n
    induction n with
    | zero => simpa [f] using hp0
    | succ k ih =>
      have he : f (k + 1) = g (f k) := Function.iterate_succ_apply' g k p0
      rw [he]
      exact (hg _ ih).1
  have hstep : ∀ n, produces (f (n + 1)) (f n) = true := by
    intro n
    have he : f (n + 1) = g (f n) := Function.iterate_succ_apply' g n p0
    rw [he]
    exact (hg _ (hf n)).2
  have hpath : ∀ n k, ProdPath S (f (n + k + 1)) (f n) := by
    intro n k
    induction k with
    | zero => exact .single (hf _) (hf _) (hstep n)
    | succ m ih =>
      have e : n + (m + 1) + 1 = (n + m + 1) + 1 := by omega
      rw [e]
      exact .cons (hf _) (hstep (n + m + 1)) ih
  have hcard : S.toFinset.card < (Finset.range (S.toFinset.card + 1)).card := by
    simp
  have hmaps : ∀ n ∈ Finset.range (S.toFinset.card + 1), f n ∈ S.toFinset := by
    intro n _
    exact List.mem_toFinset.mpr (hf n)
  obtain ⟨i, _, j, _, hij, hfeq⟩ :=
    Finset.exists_ne_map_eq_of_card_lt_of_maps_to hcard hmaps
  rcases Nat.lt_or_ge i j with hlt | hge
  · have e : j = i + (j - i - 1) + 1 := by omega
    have hp := hpath i (j - i - 1)
    rw [← e] at hp
    rw [← hfeq] at hp
    exact ⟨f i, hp⟩
  · have hlt : j < i := by omega
    have e : i = j + (i - j - 1) + 1 := by omega
    have hp := hpath j (i - j - 1)
    rw [← e] at hp
    rw [hfeq] at hp
    exact ⟨f j, hp⟩

theorem sortAux_ok : ∀ (fuel : Nat) (remaining acc order : List Op),
    List.Pairwise (fun p q => produces p q = false) acc →
    (∀ a ∈ acc, ∀ q ∈ remaining, produces q a = false) →
    (∀ a ∈ acc, produces a a = false) →
    sortAux fuel remaining acc = .ok order →
    List.Perm order (acc.reverse ++ remaining) ∧
      List.Pairwise (fun p q => produces q p = false) order ∧
      ∀ x ∈ order, produces x x = false := by
  intro fuel
  induction fuel with
  | zero =>
    intro remaining acc order hpw hcl hself h
    unfold sortAux at h
    by_cases he : remaining.isEmpty
    · rw [if_pos he] at h
      injection h with h
      subst h
      have he' : remaining = [] := List.isEmpty_iff.mp he
      subst he'
      refine ⟨by simp, List.pairwise_reverse.mpr hpw, ?_⟩
      intro x hx
      exact hself x (List.mem_reverse.mp hx)
    · rw [if_neg he] at h
      cases h
  | succ fuel ih =>
    intro remaining acc order hpw hcl hself h
    unfold sortAux at h
    by_cases he : remaining.isEmpty
    · rw [if_pos he] at h
      injection h with h
      subst h
      have he' : remaining = [] := List.isEmpty_iff.mp he
      subst he'
      refine ⟨by simp, List.pairwise_reverse.mpr hpw, ?_⟩
      intro x hx
      exact hself x (List.mem_reverse.mp hx)
    · rw [if_neg he] at h
      cases hex : extractReadyAux remaining remaining with
      | none =>
        rw [hex] at h
        cases h
      | some pr =>
        obtain ⟨p, rest⟩ := pr
        rw [hex] at h
        obtain ⟨hmem, hrest, hready⟩ := extractReadyAux_some hex
        subst hrest
        have hpw' : List.Pairwise (fun p' q' => produces p' q' = false) (p :: acc) := by
          rw [List.pairwise_cons]
          exact ⟨fun a ha => hcl a ha p hmem, hpw⟩
        have hcl' : ∀ a ∈ p :: acc, ∀ q ∈ remaining.erase p, produces q a = false := by
          intro a ha q hq
          have hq' : q ∈ remaining := List.erase_subset _ _ hq
          rcases List.mem_cons.mp ha with rfl | ha'
          · exact hready q hq'
          · exact hcl a ha' q hq'
        have hself' : ∀ a ∈ p :: acc, produces a a = false := by
          intro a ha
          rcases List.mem_cons.mp ha with rfl | ha'
          · exact hready a hmem
          · exact hself a ha'
        obtain ⟨hperm, hpw2, hself2⟩ := ih (remaining.erase p) (p :: acc) order hpw' hcl' hself' h
        refine ⟨?_, hpw2, hself2⟩
        have e1 : (p :: acc).reverse ++ remaining.erase p
            = acc.reverse ++ (p :: remaining.erase p) := by
          simp
        rw [e1] at hperm
        exact hperm.trans ((List.perm_cons_erase hmem).symm.append_left acc.reverse)

theorem sortAux_error_msg : ∀ (fuel : Nat) (remaining acc : List Op) (msg : String),
    sortAux fuel remaining acc = .error msg → msg = "CyclicGraphError" := by
  intro fuel
  induction fuel with
  | zero =>
    intro remaining acc msg h
    unfold sortAux at h
    by_cases he : remaining.isEmpty
    · rw [if_pos he] at h
      cases h
    · rw [if_neg he] at h
      injection h with h
      exact h.symm
  | succ fuel ih =>
    intro remaining acc msg h
    unfold sortAux at h
    by_cases he : remaining.isEmpty
    · rw [if_pos he] at h
      cases h
    · rw [if_neg he] at h
      cases hex : extractReadyAux remaining remaining with
      | none =>
        rw [hex] at h
        injection h with h
        exact h.symm
      | some pr =>
        obtain ⟨p, rest⟩ := pr
        rw [hex] at h
        exact ih rest (p :: acc) msg h

theorem sortAux_error (ops : List Op) : ∀ (fuel : Nat) (remaining acc : List Op) (msg : String),
    remaining.length ≤ fuel →
    (∀ x ∈ remaining, x ∈ ops) →
    sortAux fuel remaining acc = .error msg →
    hasCycle ops := by
  intro fuel
  induction fuel with
  | zero =>
    intro remaining acc msg hlen hsub h
    have he : remaining = [] := List.length_eq_zero.mp (Nat.le_zero.mp hlen)
    subst he
    unfold sortAux at h
    simp at h
  | succ fuel ih =>
    intro remaining acc msg hlen hsub h
    unfold sortAux at h
    by_cases he : remaining.isEmpty
    · rw [if_pos he] at h
      cases h
    · rw [if_neg he] at h
      cases hex : extractReadyAux remaining remaining with
      | none =>
        have hne : remaining ≠ [] := by
          intro hh
          rw [hh] at he
          exact he rfl
        obtain ⟨p, hp⟩ := blocked_has_cycle remaining hne (extractReadyAux_none hex)
        exact ⟨p, hp.mono hsub⟩
      | some pr =>
        obtain ⟨p, rest⟩ := pr
        rw [hex] at h
        obtain ⟨hmem, hrest, _⟩ := extractReadyAux_some hex
        subst hrest
        refine ih (remaining.erase p) (p :: acc) msg ?_ ?_ h
        · rw [List.length_erase_of_mem hmem]
          omega
        · intro x hx
          exact hsub x (List.erase_subset _ _ hx)

theorem pairwise_no_cycle (ops order : List Op)
    (hperm : List.Perm order ops)
    (hpw : List.Pairwise (fun p q => produces q p = false) order)
    (hself : ∀ x ∈ order, produces x x = false) :
    ¬ hasCycle ops := by
  rintro ⟨p, hp⟩
  have hpw' := List.pairwise_iff_get.mp hpw
  have hstep : ∀ a b, a ∈ order → b ∈ order → produces a b = true →
      order.indexOf a < order.indexOf b := by
    intro a b ha hb hab
    have hia : order.indexOf a < order.length := List.indexOf_lt_length.mpr ha
    have hib : order.indexOf b < order.length := List.indexOf_lt_length.mpr hb
    have hga : order.get ⟨order.indexOf a, hia⟩ = a := List.indexOf_get hia
    have hgb : order.get ⟨order.indexOf b, hib⟩ = b := List.indexOf_get hib
    rcases Nat.lt_trichotomy (order.indexOf a) (order.indexOf b) with hlt | heq | hgt
    · exact hlt
    · exfalso
      have : a = b := by
        rw [← hga, ← hgb]
        congr 1
        exact Fin.ext heq
      subst this
      have hc := hself a ha
      rw [hab] at hc
      cases hc
    · exfalso
      have hfalse := hpw' ⟨order.indexOf b, hib⟩ ⟨order.indexOf a, hia⟩ hgt
      rw [hga, hgb] at hfalse
      rw [hab] at hfalse
      cases hfalse
  have hrank : ∀ a b, ProdPath ops a b → order.indexOf a < order.indexOf b := by
    intro a b hab
    induction hab with
    | single hq hp' hprod =>
      exact hstep _ _ (hperm.mem_iff.mpr hq) (hperm.mem_iff.mpr hp') hprod
    | cons hq hprod hpath ih =>
      have hr : _ ∈ ops := hpath.left_mem
      exact Nat.lt_trans (hstep _ _ (hperm.mem_iff.mpr hq) (hperm.mem_iff.mpr hr) hprod) ih
  exact Nat.lt_irrefl _ (hrank p p hp)

/-- C7: for every acyclic input graph, the topological sort produces a
linear order in which every operation's index exceeds the index of
every operation producing one of its inputs; for any graph containing
a cycle, sorting fails with `CyclicGraphError` and the pipeline does
not proceed. -/
theorem topological_sort_correct (ops : List Op) :
    (¬ hasCycle ops →
      ∃ order, _topological_sort_ops ops = Except.ok order ∧
        List.Perm order ops ∧
        ∀ (i j : Fin order.length),
          produces (order.get j) (order.get i) = true → (j : Nat) < (i : Nat)) ∧
    (hasCycle ops → _topological_sort_ops ops = Except.error "CyclicGraphError") := by
  constructor
  · intro hnc
    cases hres : _topological_sort_ops ops with
    | error msg =>
      exact absurd (sortAux_error ops ops.length ops [] msg (Nat.le_refl _)
        (fun x hx => hx) hres) hnc
    | ok order =>
      obtain ⟨hperm, hpw, hself⟩ := sortAux_ok ops.length ops [] order
        List.Pairwise.nil (fun a ha => absurd ha (List.not_mem_nil a))
        (fun a ha => absurd ha (List.not_mem_nil a)) hres
      have hperm' : List.Perm order ops := by simpa using hperm
      refine ⟨order, rfl, hperm', ?_⟩
      intro i j hprod
      have hpw' := List.pairwise_iff_get.mp hpw
      rcases Nat.lt_trichotomy (i : Nat) (j : Nat) with hlt | heq | hgt
      · exfalso
        have hfalse := hpw' i j hlt
        rw [hprod] at hfalse
        cases hfalse
      · exfalso
        have hij : i = j := Fin.ext heq
        subst hij
        have hc := hself (order.get i) (List.get_mem order i.1 i.2)
        rw [hprod] at hc
        cases hc
      · exact hgt
  · intro hc
    cases hres : _topological_sort_ops ops with
    | error msg =>
      rw [sortAux_error_msg ops.length ops [] msg hres]
    | ok order =>
      obtain ⟨hperm, hpw, hself⟩ := sortAux_ok ops.length ops [] order
        List.Pairwise.nil (fun a ha => absurd ha (List.not_mem_nil a))
        (fun a ha => absurd ha (List.not_mem_nil a)) hres
      exact absurd hc (pairwise_no_cycle ops order (by simpa using hperm) hpw hself)

/-- Constant operation used in concrete examples. -/
def opA : Op := ⟨"A", "Const", [], [⟨"A:0", some [some 2, some 3]⟩]⟩

/-- Identity operation consuming the constant, used in concrete examples. -/
def opB : Op := ⟨"B", "Identity", ["A:0"], [⟨"B:0", some [some 2, some 3]⟩]⟩

/-- Operation forming a self-loop in the producer relation. -/
def opC : Op := ⟨"C", "Add", ["C:0"], [⟨"C:0", none⟩]⟩

theorem topological_sort_correct_witness :
    (∃ order, _topological_sort_ops [opA, opB] = Except.ok order ∧
        List.Perm order [opA, opB] ∧
        ∀ (i j : Fin order.length),
          produces (order.get j) (order.get i) = true → (j : Nat) < (i : Nat)) ∧
    _topological_sort_ops [opC] = Except.error "CyclicGraphError" := by
  constructor
  · apply (topological_sort_correct [opA, opB]).1
    intro hc
    have hres : _topological_sort_ops [opA, opB] = Except.ok [opA, opB] := rfl
    obtain ⟨hperm, hpw, hself⟩ := sortAux_ok 2 [opA, opB] [] [opA, opB]
      List.Pairwise.nil (fun a ha => absurd ha (List.not_mem_nil a))
      (fun a ha => absurd ha (List.not_mem_nil a)) hres
    exact pairwise_no_cycle [opA, opB] [opA, opB] (by simp) hpw hself hc
  · exact (topological_sort_correct [opC]).2
      ⟨opC, .single (List.mem_cons_self _ _) (List.mem_cons_self _ _) (by decide)⟩

/-! ## Unsupported-operation check (claim C1)

Embedding of `_check_unsupported_ops` (lines 160-188 of
`_tf_coreml_converter.py`).  The registry `_OP_REGISTRY` is an external
table and enters as a parameter listing the supported type tags. -/

/-- Test of the `all_outputs_reached` flag: every requested output name
has already been encountered. -/
def allOutputsSeen (outs seen : List String) : Bool :=
  outs.all (fun o => seen.contains o)

/-- Loop of `_check_unsupported_ops`: walk the topologically ordered
operations, stopping once every requested output has been encountered,
and collect the distinct types that are missing from the registry and
whose operation name is not in the skip set. -/
def collectUnsupportedAux (registry skipOps outs : List String) :
    List Op → List String → List String → List String
  | [], _, unsupported => unsupported
  | op :: rest, seen, unsupported =>
    if allOutputsSeen outs seen then unsupported
    else
      let unsupported' :=
        if !(registry.contains op.type) && !(unsupported.contains op.type)
            && !(skipOps.contains op.name) then unsupported ++ [op.type]
        else unsupported
      collectUnsupportedAux registry skipOps outs rest (seen ++ opOutputNames op) unsupported'

/-- Embedding of `_check_unsupported_ops`: error out listing the
collected unsupported types when at least one was found. -/
def _check_unsupported_ops (registry : List String) (ops : List Op)
    (output_feature_names skip_ops : List String) : Except String Unit :=
  let u := collectUnsupportedAux registry skip_ops output_feature_names ops [] []
  if u.length > 0 then
    .error ("Unsupported Ops of type: " ++ String.intercalate "," u)
  else .ok ()

/-- Number of operations the scan of `_check_unsupported_ops` visits:
it stops at the first position where every requested output has
already been produced. -/
def scanLen (outs : List String) : List Op → List String → Nat
  | [], _ => 0
  | op :: rest, seen =>
    if allOutputsSeen outs seen then 0
    else 1 + scanLen outs rest (seen ++ opOutputNames op)

/-- Operation blocking the conversion: type absent from the registry
and name absent from the skip set. -/
def isBlocker (registry skipOps : List String) (op : Op) : Bool :=
  !(registry.contains op.type) && !(skipOps.contains op.name)

theorem blockCond_iff (registry skipOps acc : List String) (op : Op) :
    (!(registry.contains op.type) && !(acc.contains op.type)
        && !(skipOps.contains op.name)) = true
    ↔ (isBlocker registry skipOps op = true ∧ op.type ∉ acc) := by
  simp [isBlocker]
  tauto

theorem collectUnsupportedAux_spec (registry skipOps outs : List String) :
    ∀ (ops : List Op) (seen acc : List String), acc.Nodup →
      (collectUnsupportedAux registry skipOps outs ops seen acc).Nodup ∧
      ∀ t, t ∈ collectUnsupportedAux registry skipOps outs ops seen acc ↔
        t ∈ acc ∨ ∃ op ∈ ops.take (scanLen outs ops seen),
          op.type = t ∧ isBlocker registry skipOps op = true := by
  intro ops
  induction ops with
  | nil =>
    intro seen acc hnd
    refine ⟨hnd, ?_⟩
    intro t
    simp [collectUnsupportedAux]
  | cons op rest ih =>
    intro seen acc hnd
    by_cases hseen : allOutputsSeen outs seen = true
    · refine ⟨by simpa [collectUnsupportedAux, hseen] using hnd, ?_⟩
      intro t
      simp [collectUnsupportedAux, scanLen, hseen]
    · have hrw : collectUnsupportedAux registry skipOps outs (op :: rest) seen acc
          = collectUnsupportedAux registry skipOps outs rest (seen ++ opOutputNames op)
            (if !(registry.contains op.type) && !(acc.contains op.type)
                && !(skipOps.contains op.name) then acc ++ [op.type] else acc) := by
        simp only [collectUnsupportedAux, if_neg hseen]
      have htake : (op :: rest).take (scanLen outs (op :: rest) seen)
          = op :: rest.take (scanLen outs rest (seen ++ opOutputNames op)) := by
        simp only [scanLen, if_neg hseen]
        rw [Nat.add_comm]
        rfl
      by_cases hc : (!(registry.contains op.type) && !(acc.contains op.type)
          && !(skipOps.contains op.name)) = true
      · obtain ⟨hblocker, hnotin⟩ := (blockCond_iff registry skipOps acc op).mp hc
        have hnd' : (acc ++ [op.type]).Nodup := by
          simp [List.nodup_append, hnd, hnotin]
        obtain ⟨hnd2, hiff⟩ := ih (seen ++ opOutputNames op) (acc ++ [op.type]) hnd'
        rw [hrw, if_pos hc, htake]
        refine ⟨hnd2, ?_⟩
        intro t
        rw [hiff t]
        simp only [List.mem_append, List.mem_cons, List.not_mem_nil, or_false]
        constructor
        · rintro ((h | rfl) | ⟨op', hop', ht, hb⟩)
          · exact Or.inl h
          · exact Or.inr ⟨op, Or.inl rfl, rfl, hblocker⟩
          · exact Or.inr ⟨op', Or.inr hop', ht, hb⟩
        · rintro (h | ⟨op', rfl | hop', ht, hb⟩)
          · exact Or.inl (Or.inl h)
          · exact Or.inl (Or.inr ht.symm)
          · exact Or.inr ⟨op', hop', ht, hb⟩
      · have hcase : isBlocker registry skipOps op = false ∨ op.type ∈ acc := by
          by_cases hb : isBlocker registry skipOps op = true
          · by_cases hm : op.type ∈ acc
            · exact Or.inr hm
            · exact absurd ((blockCond_iff registry skipOps acc op).mpr ⟨hb, hm⟩) hc
          · exact Or.inl (Bool.not_eq_true _ ▸ Bool.eq_false_iff.mpr hb)
        obtain ⟨hnd2, hiff⟩ := ih (seen ++ opOutputNames op) acc hnd
        rw [hrw, if_neg hc, htake]
        refine ⟨hnd2, ?_⟩
        intro t
        rw [hiff t]
        constructor
        · rintro (h | ⟨op', hop', ht, hb⟩)
          · exact Or.inl h
          · exact Or.inr ⟨op', List.mem_cons_of_mem _ hop', ht, hb⟩
        · rintro (h | ⟨op', hop', ht, hb⟩)
          · exact Or.inl h
          · rcases List.mem_cons.mp hop' with rfl | hop''
            · subst ht
              rcases hcase with hfalse | hmem
              · rw [hb] at hfalse
                cases hfalse
              · exact Or.inl hmem
            · exact Or.inr ⟨op', hop'', ht, hb⟩

/-- C1 (amended): with custom-layer fallback disabled, the scan walks
the topologically ordered operations until every requested output has
been encountered — not merely the first — and the conversion fails
with a single error naming exactly the distinct types in that scanned
segment that are missing from the registry and whose operation name is
not in the skip set; it succeeds if and only if no such blocker
exists in the scanned segment. -/
theorem check_unsupported_ops_correct (registry : List String) (ops : List Op)
    (outs skipOps : List String) :
    ((_check_unsupported_ops registry ops outs skipOps = Except.ok ()) ↔
      ∀ op ∈ ops.take (scanLen outs ops []), isBlocker registry skipOps op = false) ∧
    ∀ msg, _check_unsupported_ops registry ops outs skipOps = Except.error msg →
      ∃ types, msg = "Unsupported Ops of type: " ++ String.intercalate "," types ∧
        types ≠ [] ∧ types.Nodup ∧
        ∀ t, t ∈ types ↔ ∃ op ∈ ops.take (scanLen outs ops []),
          op.type = t ∧ isBlocker registry skipOps op = true := by
  obtain ⟨hnd, hiff⟩ := collectUnsupportedAux_spec registry skipOps outs ops [] []
    List.Pairwise.nil
  have hchar : ∀ t, t ∈ collectUnsupportedAux registry skipOps outs ops [] [] ↔
      ∃ op ∈ ops.take (scanLen outs ops []), op.type = t ∧
        isBlocker registry skipOps op = true := by
    intro t
    rw [hiff t]
    simp
  constructor
  · constructor
    · intro hok op hop
      unfold _check_unsupported_ops at hok
      by_cases hlen : (collectUnsupportedAux registry skipOps outs ops [] []).length > 0
      · rw [if_pos hlen] at hok
        cases hok
      · have hnil : collectUnsupportedAux registry skipOps outs ops [] [] = [] := by
          cases hres : collectUnsupportedAux registry skipOps outs ops [] [] with
          | nil => rfl
          | cons a l =>
            rw [hres] at hlen
            simp at hlen
        by_cases hb : isBlocker registry skipOps op = true
        · exfalso
          have : op.type ∈ collectUnsupportedAux registry skipOps outs ops [] [] :=
            (hchar op.type).mpr ⟨op, hop, rfl, hb⟩
          rw [hnil] at this
          cases this
        · exact Bool.not_eq_true _ ▸ Bool.eq_false_iff.mpr hb
    · intro hall
      unfold _check_unsupported_ops
      have hnil : collectUnsupportedAux registry skipOps outs ops [] [] = [] := by
        rw [List.eq_nil_iff_forall_not_mem]
        intro t ht
        obtain ⟨op, hop, _, hb⟩ := (hchar t).mp ht
        rw [hall op hop] at hb
        cases hb
      rw [hnil]
      rfl
  · intro msg herr
    unfold _check_unsupported_ops at herr
    by_cases hlen : (collectUnsupportedAux registry skipOps outs ops [] []).length > 0
    · rw [if_pos hlen] at herr
      injection herr with herr
      refine ⟨collectUnsupportedAux registry skipOps outs ops [] [], herr.symm, ?_, hnd, hchar⟩
      intro hnil
      rw [hnil] at hlen
      simp at hlen
    · rw [if_neg hlen] at herr
      cases herr

/-- Number of operations visited before the first requested output is
encountered (the reading of the claim in which the scan is supposed to
stop at the first reachable output). -/
def scanLenFirst (outs : List String) : List Op → List String → Nat
  | [], _ => 0
  | op :: rest, seen =>
    if outs.any (fun o => seen.contains o) then 0
    else 1 + scanLenFirst outs rest (seen ++ opOutputNames op)

/-- Supported operation producing the first requested output. -/
def opP : Op := ⟨"P", "Identity", [], [⟨"o1:0", some [some 1]⟩]⟩

/-- Unsupported operation placed after the first requested output. -/
def opU : Op := ⟨"U", "Weird", [], [⟨"w:0", some [some 1]⟩]⟩

/-- Supported operation producing the second requested output. -/
def opQ : Op := ⟨"Q", "Identity", [], [⟨"o2:0", some [some 1]⟩]⟩

/-- C1 (counterexample): with two requested outputs, the scan keeps
collecting after the first reachable output has been produced — the
error names the type `Weird` of an operation that occurs strictly
after the operation producing the first requested output, while no
blocker at all occurs before the first reachable output. -/
theorem check_unsupported_ops_counterexample :
    _check_unsupported_ops ["Identity"] [opP, opU, opQ] ["o1:0", "o2:0"] []
        = Except.error "Unsupported Ops of type: Weird" ∧
    scanLenFirst ["o1:0", "o2:0"] [opP, opU, opQ] [] = 1 ∧
    ∀ op ∈ [opP, opU, opQ].take (scanLenFirst ["o1:0", "o2:0"] [opP, opU, opQ] []),
      isBlocker ["Identity"] [] op = false := by
  refine ⟨rfl, rfl, ?_⟩
  decide

theorem check_unsupported_ops_correct_witness :
    _check_unsupported_ops ["Identity"] [opP] ["o1:0"] [] = Except.ok () ∧
    ∃ types,
      "Unsupported Ops of type: Weird" = "Unsupported Ops of type: "
        ++ String.intercalate "," types ∧
      types ≠ [] ∧ types.Nodup ∧
      ∀ t, t ∈ types ↔
        ∃ op ∈ [opP, opU, opQ].take (scanLen ["o1:0", "o2:0"] [opP, opU, opQ] []),
          op.type = t ∧ isBlocker ["Identity"] [] op = true := by
  constructor
  · exact (check_unsupported_ops_correct ["Identity"] [opP] ["o1:0"] []).1.mpr (by decide)
  · exact (check_unsupported_ops_correct ["Identity"] [opP, opU, opQ]
      ["o1:0", "o2:0"] []).2 "Unsupported Ops of type: Weird" rfl

/-! ## Placeholder shape resolution (claims C2 and C9)

Embedding of the placeholder loop of `_convert_pb_to_mlmodel`
(lines 255-286 of `_tf_coreml_converter.py`). -/

/-- Message of the error raised when the declared shape of a
placeholder has unknown rank (`shape.as_list()` raises). -/
def provideShapeMsg (inputName : String) : String :=
  "Please provide the shape for the input " ++ inputName
    ++ " through the argument input_name_shape_dict"

/-- Message of the error raised for a placeholder with an incomplete
shape that is not of the leading-dimension-only kind. -/
def shapeUnknownMsg (inputName : String) : String :=
  inputName ++ " is a placeholder with incomplete shape. Please provide the"
    ++ " input_name_shape_dict argument to the convert function, with the fully defined shape."

/-- Shape with every dimension known. -/
def isFullyDefined (dims : List (Option Nat)) : Bool := dims.all (·.isSome)

/-- Resolution of the shape of one placeholder input: the override map
wins; else a fully defined declared shape is taken as is; else, when
only the leading dimension is undetermined, it is replaced by 1; any
other incomplete shape is an error naming the input. -/
def resolvePlaceholderShape (overrides : List (String × List Nat)) (inputName : String)
    (declared : Option (List (Option Nat))) : Except String (List Nat) :=
  match dictGet? overrides inputName with
  | some s => .ok s
  | none =>
    match declared with
    | none => .error (provideShapeMsg inputName)
    | some dims =>
      if isFullyDefined dims then .ok (dims.map (fun d => d.getD 0))
      else
        match dims with
        | none :: rest =>
          if isFullyDefined rest then .ok (1 :: rest.map (fun d => d.getD 0))
          else .error (shapeUnknownMsg inputName)
        | _ => .error (shapeUnknownMsg inputName)

/-- Message of the assertion guarding against placeholder outputs. -/
def assertMsg : String := "Output feature cannot be a placeholder"

/-- One iteration of the placeholder loop: for a `Placeholder`
operation, first assert that none of its outputs is a requested output
feature, then resolve the shape of its (single) output tensor and
commit it into the shape dictionary. -/
def placeholderStep (overrides : List (String × List Nat)) (outs : List String)
    (acc : List (String × List Nat)) (op : Op) : Except String (List (String × List Nat)) :=
  if op.type == "Placeholder" then
    if op.outputs.any (fun t => outs.contains t.name) then .error assertMsg
    else
      match op.outputs with
      | [] => .error "IndexError"
      | t0 :: _ =>
        match resolvePlaceholderShape overrides t0.name t0.declaredShape with
        | .error e => .error e
        | .ok shape => .ok (dictSet acc t0.name shape)
  else .ok acc

/-- Placeholder pass over the topologically ordered operations,
threading the shape dictionary. -/
def placeholderPassAux (overrides : List (String × List Nat)) (outs : List String) :
    List Op → List (String × List Nat) → Except String (List (String × List Nat))
  | [], acc => .ok acc
  | op :: rest, acc =>
    match placeholderStep overrides outs acc op with
    | .error e => .error e
    | .ok acc' => placeholderPassAux overrides outs rest acc'

/-- C2: for an input placeholder whose name has no override entry, a
shape whose only unknown dimension is the leading one is resolved to
an explicit leading 1; any other incomplete shape (including unknown
rank) fails with an error naming the offending input; an override
entry always resolves the input to its shape. -/
theorem placeholder_shape_policy (overrides : List (String × List Nat)) (inputName : String) :
    (∀ s d, dictGet? overrides inputName = some s →
      resolvePlaceholderShape overrides inputName d = Except.ok s) ∧
    (dictGet? overrides inputName = none →
      ∀ rest, isFullyDefined rest = true →
        resolvePlaceholderShape overrides inputName (some (none :: rest))
          = Except.ok (1 :: rest.map (fun d => d.getD 0))) ∧
    (dictGet? overrides inputName = none →
      ∀ dims, isFullyDefined dims = false →
        (∀ rest, dims = none :: rest → isFullyDefined rest = false) →
        resolvePlaceholderShape overrides inputName (some dims)
          = Except.error (shapeUnknownMsg inputName)) ∧
    (dictGet? overrides inputName = none →
      resolvePlaceholderShape overrides inputName none
        = Except.error (provideShapeMsg inputName)) := by
  refine ⟨?_, ?_, ?_, ?_⟩
  · intro s d hov
    unfold resolvePlaceholderShape
    rw [hov]
  · intro hov rest hrest
    unfold resolvePlaceholderShape
    rw [hov]
    have hnotfull : isFullyDefined (none :: rest) = false := by
      simp [isFullyDefined]
    simp [hnotfull, hrest]
  · intro hov dims hfull hnotlead
    match dims with
    | [] => simp [isFullyDefined] at hfull
    | none :: rest =>
      have hr := hnotlead rest rfl
      unfold resolvePlaceholderShape
      rw [hov]
      simp [hfull, hr]
    | some d :: rest =>
      unfold resolvePlaceholderShape
      rw [hov]
      simp [hfull]
  · intro hov
    unfold resolvePlaceholderShape
    rw [hov]

theorem placeholder_shape_policy_witness :
    resolvePlaceholderShape [("x:0", [1, 10])] "x:0" (some [some 7, none])
        = Except.ok [1, 10] ∧
    resolvePlaceholderShape [] "x:0" (some [none, some 10]) = Except.ok [1, 10] ∧
    resolvePlaceholderShape [] "x:0" (some [some 5, none])
        = Except.error (shapeUnknownMsg "x:0") ∧
    resolvePlaceholderShape [] "x:0" none = Except.error (provideShapeMsg "x:0") := by
  refine ⟨?_, ?_, ?_, ?_⟩
  · exact (placeholder_shape_policy [("x:0", [1, 10])] "x:0").1 [1, 10] _ (by decide)
  · exact (placeholder_shape_policy [] "x:0").2.1 rfl [some 10] (by decide)
  · exact (placeholder_shape_policy [] "x:0").2.2.1 rfl [some 5, none] (by decide)
      (by intro rest h; cases h)
  · exact (placeholder_shape_policy [] "x:0").2.2.2 rfl

/-! ## Pipeline skeleton, probe fallback (claims C3 and C9) -/

/-- Fallback of the probing step: the result of `_find_unused_ops` is
used when it returns and the bare `try/except: pass` of lines 290-296
replaces any failure by empty unused and effectively-constant sets. -/
def probeResult (probe : Except String (List String × List String)) :
    List String × List String :=
  match probe with
  | .ok r => r
  | .error _ => ([], [])

/-- Control-flow skeleton of `_convert_pb_to_mlmodel`: the placeholder
pass, then the probing step wrapped in its try/except fallback, then
the shape stage, then the remaining stages (output collection, the
unsupported-operation check and lowering), abstracted as stage
functions.  Every stage except the probe propagates its error. -/
def convertSkeleton {A B C : Type} (placeholderStage : Except String A)
    (probeStage : Except String (List String × List String))
    (shapeStage : A → List String × List String → Except String B)
    (loweringStage : B → Except String C) : Except String C :=
  match placeholderStage with
  | .error e => .error e
  | .ok a =>
    match shapeStage a (probeResult probeStage) with
    | .error e => .error e
    | .ok b => loweringStage b

/-- C3: a failure of the liveness/constant dual-probe step is
non-fatal — the pipeline continues exactly as if the probe had
reported empty unused and effectively-constant sets — while a failure
of any other stage propagates unmodified to the caller. -/
theorem probe_failure_nonfatal {A B C : Type} (ph : Except String A)
    (probe : Except String (List String × List String))
    (sh : A → List String × List String → Except String B)
    (lo : B → Except String C) :
    (∀ e, convertSkeleton ph (Except.error e) sh lo
        = convertSkeleton ph (Except.ok ([], [])) sh lo) ∧
    (∀ e, ph = Except.error e → convertSkeleton ph probe sh lo = Except.error e) ∧
    (∀ a e, ph = Except.ok a → sh a (probeResult probe) = Except.error e →
      convertSkeleton ph probe sh lo = Except.error e) ∧
    (∀ a b e, ph = Except.ok a → sh a (probeResult probe) = Except.ok b →
      lo b = Except.error e → convertSkeleton ph probe sh lo = Except.error e) := by
  refine ⟨?_, ?_, ?_, ?_⟩
  · intro e
    rfl
  · intro e h
    subst h
    rfl
  · intro a e hph hsh
    subst hph
    show (match sh a (probeResult probe) with
      | .error e => (.error e : Except String C)
      | .ok b => lo b) = Except.error e
    rw [hsh]
  · intro a b e hph hsh hlo
    subst hph
    show (match sh a (probeResult probe) with
      | .error e => (.error e : Except String C)
      | .ok b => lo b) = Except.error e
    rw [hsh]
    exact hlo

theorem probe_failure_nonfatal_witness :
    convertSkeleton (Except.ok 0) (Except.error "probe failed")
        (fun (a : Nat) (r : List String × List String) => Except.ok (a + r.2.length))
        (fun b => Except.ok b)
      = convertSkeleton (Except.ok 0) (Except.ok ([], []))
        (fun (a : Nat) (r : List String × List String) => Except.ok (a + r.2.length))
        (fun b => Except.ok b) ∧
    convertSkeleton (Except.error "placeholder failed" : Except String Nat)
        (Except.ok ([], [])) (fun (a : Nat) _ => Except.ok a) (fun b => Except.ok b)
      = Except.error "placeholder failed" ∧
    convertSkeleton (Except.ok 0) (Except.ok ([], []))
        (fun (_ : Nat) _ => (Except.error "shape failed" : Except String Nat))
        (fun b => Except.ok b)
      = Except.error "shape failed" ∧
    convertSkeleton (Except.ok 0) (Except.ok ([], [])) (fun (a : Nat) _ => Except.ok a)
        (fun _ => (Except.error "lowering failed" : Except String Nat))
      = Except.error "lowering failed" := by
  refine ⟨?_, ?_, ?_, ?_⟩
  · exact (probe_failure_nonfatal (Except.ok 0) (Except.ok ([], []))
      (fun a r => Except.ok (a + r.2.length)) (fun b => Except.ok b)).1 "probe failed"
  · exact (probe_failure_nonfatal (Except.error "placeholder failed" : Except String Nat)
      (Except.ok ([], [])) (fun a _ => Except.ok a) (fun b => Except.ok b)).2.1
      "placeholder failed" rfl
  · exact (probe_failure_nonfatal (Except.ok 0) (Except.ok ([], []))
      (fun _ _ => (Except.error "shape failed" : Except String Nat))
      (fun b => Except.ok b)).2.2.1 0 "shape failed" rfl rfl
  · exact (probe_failure_nonfatal (Except.ok 0) (Except.ok ([], []))
      (fun a _ => Except.ok a)
      (fun _ => (Except.error "lowering failed" : Except String Nat))).2.2.2
      0 0 "lowering failed" rfl rfl rfl

/-- Placeholder with an incomplete, non-leading-dimension shape. -/
def phBad : Op := ⟨"a", "Placeholder", [], [⟨"a:0", some [some 2, none]⟩]⟩

/-- Placeholder whose output is a requested output feature. -/
def phOut : Op := ⟨"b", "Placeholder", [], [⟨"b:0", some [some 3]⟩]⟩

/-- C9 (counterexample): an output-feature placeholder is present, but
an earlier placeholder fails its shape resolution first, so the pass
fails with the incomplete-shape error rather than the assertion error
claimed. -/
theorem placeholder_assert_counterexample :
    (∃ op ∈ [phBad, phOut], op.type = "Placeholder" ∧
      ∃ t ∈ op.outputs, List.contains ["b:0"] t.name = true) ∧
    placeholderPassAux [] ["b:0"] [phBad, phOut] []
      = Except.error (shapeUnknownMsg "a:0") ∧
    shapeUnknownMsg "a:0" ≠ assertMsg := by
  refine ⟨?_, rfl, by decide⟩
  exact ⟨phOut, by decide, rfl, ⟨⟨"b:0", some [some 3]⟩, by decide, by decide⟩⟩

/-- C9 (amended): if some `Placeholder` operation has an output tensor
among the requested output feature names, then — provided every
operation before it in the topologically ordered list passes its
placeholder step — the placeholder pass fails with the assertion
error `Output feature cannot be a placeholder`, and the failure
happens before the probing, shape or lowering stages run. -/
theorem placeholder_output_assert (overrides : List (String × List Nat))
    (outs : List String) (l1 l2 : List Op) (op : Op)
    (h1 : ∀ op' ∈ l1, ∀ acc, (placeholderStep overrides outs acc op').isOk = true)
    (h2 : op.type = "Placeholder")
    (h3 : ∃ t ∈ op.outputs, outs.contains t.name = true) :
    placeholderPassAux overrides outs (l1 ++ op :: l2) [] = Except.error assertMsg ∧
    ∀ (B C : Type) (probe : Except String (List String × List String))
      (sh : List (String × List Nat) → List String × List String → Except String B)
      (lo : B → Except String C),
      convertSkeleton (placeholderPassAux overrides outs (l1 ++ op :: l2) []) probe sh lo
        = Except.error assertMsg := by
  have hstep : ∀ acc, placeholderStep overrides outs acc op = Except.error assertMsg := by
    intro acc
    have hany : op.outputs.any (fun t => outs.contains t.name) = true := by
      rw [List.any_eq_true]
      obtain ⟨t, ht, htc⟩ := h3
      exact ⟨t, ht, htc⟩
    unfold placeholderStep
    rw [h2, hany]
    simp
  have key : ∀ (l : List Op), (∀ op' ∈ l, ∀ acc, (placeholderStep overrides outs acc op').isOk = true) →
      ∀ acc, placeholderPassAux overrides outs (l ++ op :: l2) acc = Except.error assertMsg := by
    intro l
    induction l with
    | nil =>
      intro _ acc
      show (match placeholderStep overrides outs acc op with
        | .error e => (.error e : Except String (List (String × List Nat)))
        | .ok acc' => placeholderPassAux overrides outs l2 acc') = Except.error assertMsg
      rw [hstep acc]
    | cons p l' ih =>
      intro hall acc
      show (match placeholderStep overrides outs acc p with
        | .error e => (.error e : Except String (List (String × List Nat)))
        | .ok acc' => placeholderPassAux overrides outs (l' ++ op :: l2) acc') = Except.error assertMsg
      have hok := hall p (List.mem_cons_self _ _) acc
      cases hres : placeholderStep overrides outs acc p with
      | error e =>
        rw [hres] at hok
        cases hok
      | ok acc' =>
        exact ih (fun op' hm acc => hall op' (List.mem_cons_of_mem _ hm) acc) acc'
  have hpass := key l1 h1 []
  refine ⟨hpass, ?_⟩
  intro B C probe sh lo
  rw [hpass]
  rfl

theorem placeholder_output_assert_witness :
    placeholderPassAux [] ["b:0"] [phOut] [] = Except.error assertMsg ∧
    convertSkeleton (placeholderPassAux [] ["b:0"] [phOut] []) (Except.ok ([], []))
        (fun sd _ => Except.ok sd.length) (fun b => Except.ok b)
      = Except.error assertMsg := by
  have h := placeholder_output_assert [] ["b:0"] [] [] phOut
    (by intro op' h' acc; cases h') rfl
    ⟨⟨"b:0", some [some 3]⟩, by decide, by decide⟩
  exact ⟨h.1, h.2 Nat Nat (Except.ok ([], [])) (fun sd _ => Except.ok sd.length)
    (fun b => Except.ok b)⟩

/-! ## Shape dictionary building and constant capture (claims C4, C6) -/

/-- Constant-kind test of lines 309-314 of the source: type `Const`,
or type `Dequantize` with the operation marked effectively constant. -/
def constKind (effConst : List String) (op : Op) : Bool :=
  op.type == "Const" || (op.type == "Dequantize" && effConst.contains op.name)

/-- Name of the first output tensor of an operation. -/
def headOutputName (op : Op) : Option String := (op.outputs.head?).map (·.name)

/-- Static pass of lines 298-318: for every output tensor, commit the
declared shape when fully defined (an unconditional dictionary
assignment) or add the tensor to the wanted-shapes list; collect the
first output of every constant-kind operation into the wanted-consts
list. -/
def collectWantedAux (effConst : List String) :
    List Op → List (String × List Nat) → List String → List String →
    List (String × List Nat) × List String × List String
  | [], sd, sw, cw => (sd, sw, cw)
  | op :: rest, sd, sw, cw =>
    let step := op.outputs.foldl
      (fun (p : List (String × List Nat) × List String) t =>
        match t.declaredShape with
        | some dims =>
          if isFullyDefined dims then
            (dictSet p.1 t.name (dims.map (fun d => d.getD 0)), p.2)
          else (p.1, p.2 ++ [t.name])
        | none => (p.1, p.2 ++ [t.name])) (sd, sw)
    let cw' :=
      if constKind effConst op then
        match op.outputs with
        | t :: _ => cw ++ [t.name]
        | [] => cw
      else cw
    collectWantedAux effConst rest step.1 step.2 cw'

/-- Names collected into the wanted-consts list, described
declaratively: first outputs of the constant-kind operations. -/
def wantedConsts (effConst : List String) (ops : List Op) : List String :=
  (ops.filter (fun op => constKind effConst op)).filterMap headOutputName

/-- One iteration of the evaluation loop of lines 328-332: the shape
dictionary is extended only at names not already present, and the
constant table receives every wanted name not already stored. -/
def runBatchStep (evalShape : String → List Nat) (evalVal : String → Int)
    (constsWanted : List String)
    (p : List (String × List Nat) × List (String × Int)) (n : String) :
    List (String × List Nat) × List (String × Int) :=
  let sd' := if dictContains p.1 n then p.1 else dictSet p.1 n (evalShape n)
  let cs' := if constsWanted.contains n && !(dictContains p.2 n)
    then dictSet p.2 n (evalVal n) else p.2
  (sd', cs')

/-- Batched execution pass of lines 321-332: one run of the session
evaluates all wanted shapes and constants together. -/
def runBatch (evalShape : String → List Nat) (evalVal : String → Int)
    (sd : List (String × List Nat)) (shapesWanted constsWanted : List String) :
    List (String × List Nat) × List (String × Int) :=
  (shapesWanted ++ constsWanted).foldl
    (runBatchStep evalShape evalVal constsWanted) (sd, [])

theorem dictGet?_none_of_not_contains {α : Type} (d : List (String × α)) (k : String)
    (h : dictContains d k = false) : dictGet? d k = none := by
  unfold dictContains at h
  cases hg : dictGet? d k with
  | none => rfl
  | some v =>
    rw [hg] at h
    cases h

theorem collectWantedAux_cw (effConst : List String) :
    ∀ (ops : List Op) (sd : List (String × List Nat)) (sw cw : List String),
      (collectWantedAux effConst ops sd sw cw).2.2 = cw ++ wantedConsts effConst ops := by
  intro ops
  induction ops with
  | nil =>
    intro sd sw cw
    simp [collectWantedAux, wantedConsts]
  | cons op rest ih =>
    intro sd sw cw
    show (collectWantedAux effConst rest _ _ _).2.2 = _
    rw [ih]
    by_cases hck : constKind effConst op = true
    · cases hout : op.outputs with
      | nil =>
        simp [hck, hout, wantedConsts, headOutputName]
      | cons t ts =>
        simp [hck, hout, wantedConsts, headOutputName]
    · simp only [hck]
      have hck' : constKind effConst op = false := by
        cases h : constKind effConst op
        · rfl
        · exact absurd h hck
      simp [hck', wantedConsts]

theorem runBatchFold_spec (evalShape : String → List Nat) (evalVal : String → Int)
    (cw : List String) :
    ∀ (names : List String) (sd : List (String × List Nat)) (cs : List (String × Int)),
      (∀ m v, dictGet? cs m = some v → m ∈ cw ∧ v = evalVal m) →
      (∀ m v, dictGet? (names.foldl (runBatchStep evalShape evalVal cw) (sd, cs)).2 m = some v →
        m ∈ cw ∧ v = evalVal m) ∧
      (∀ m ∈ names, m ∈ cw →
        dictGet? (names.foldl (runBatchStep evalShape evalVal cw) (sd, cs)).2 m
          = some (evalVal m)) ∧
      (∀ m v, dictGet? cs m = some v →
        dictGet? (names.foldl (runBatchStep evalShape evalVal cw) (sd, cs)).2 m = some v) ∧
      (∀ m v, dictGet? sd m = some v →
        dictGet? (names.foldl (runBatchStep evalShape evalVal cw) (sd, cs)).1 m = some v) := by
  intro names
  induction names with
  | nil =>
    intro sd cs hinv
    refine ⟨hinv, ?_, ?_, ?_⟩
    · intro m hm
      cases hm
    · intro m v h
      exact h
    · intro m v h
      exact h
  | cons n rest ih =>
    intro sd cs hinv
    rw [List.foldl_cons]
    have hstep : runBatchStep evalShape evalVal cw (sd, cs) n
        = (if dictContains sd n then sd else dictSet sd n (evalShape n),
           if cw.contains n && !(dictContains cs n) then dictSet cs n (evalVal n) else cs) := rfl
    rw [hstep]
    set cs' := if cw.contains n && !(dictContains cs n) then dictSet cs n (evalVal n) else cs with hcs'
    set sd' := if dictContains sd n then sd else dictSet sd n (evalShape n) with hsd'
    have hinv' : ∀ m v, dictGet? cs' m = some v → m ∈ cw ∧ v = evalVal m := by
      intro m v h
      rw [hcs'] at h
      by_cases hc : (cw.contains n && !(dictContains cs n)) = true
      · rw [if_pos hc] at h
        by_cases hmn : n = m
        · subst hmn
          rw [dictGet?_dictSet_self] at h
          injection h with h
          simp only [Bool.and_eq_true] at hc
          have hmem : n ∈ cw := by simpa using hc.1
          exact ⟨hmem, h.symm⟩
        · rw [dictGet?_dictSet_ne cs n m (evalVal n) hmn] at h
          exact hinv m v h
      · rw [if_neg hc] at h
        exact hinv m v h
    have hmono : ∀ m v, dictGet? cs m = some v → dictGet? cs' m = some v := by
      intro m v h
      rw [hcs']
      by_cases hc : (cw.contains n && !(dictContains cs n)) = true
      · rw [if_pos hc]
        simp only [Bool.and_eq_true] at hc
        have hn : dictGet? cs n = none := by
          apply dictGet?_none_of_not_contains
          cases hdc : dictContains cs n
          · rfl
          · rw [hdc] at hc
            simp at hc
        have hmn : n ≠ m := by
          intro he
          subst he
          rw [hn] at h
          cases h
        rw [dictGet?_dictSet_ne cs n m (evalVal n) hmn]
        exact h
      · rw [if_neg hc]
        exact h
    have hsmono : ∀ m v, dictGet? sd m = some v → dictGet? sd' m = some v := by
      intro m v h
      rw [hsd']
      by_cases hc : dictContains sd n = true
      · rw [if_pos hc]
        exact h
      · rw [if_neg hc]
        have hn : dictGet? sd n = none := by
          apply dictGet?_none_of_not_contains
          cases hdc : dictContains sd n
          · rfl
          · exact absurd hdc hc
        have hmn : n ≠ m := by
          intro he
          subst he
          rw [hn] at h
          cases h
        rw [dictGet?_dictSet_ne sd n m (evalShape n) hmn]
        exact h
    obtain ⟨b1, b2, b3, b4⟩ := ih sd' cs' hinv'
    refine ⟨b1, ?_, ?_, ?_⟩
    · intro m hm hmcw
      rcases List.mem_cons.mp hm with rfl | hm'
      · apply b3
        rw [hcs']
        by_cases hcn : dictContains cs m = true
        · rw [if_neg ?_]
          · cases hg : dictGet? cs m with
            | none =>
              unfold dictContains at hcn
              rw [hg] at hcn
              cases hcn
            | some v =>
              obtain ⟨_, hv⟩ := hinv m v hg
              rw [hv]
          · simp [hcn]
        · rw [if_pos ?_]
          · exact dictGet?_dictSet_self cs m (evalVal m)
          · have hfalse : dictContains cs m = false := by
              cases hdc : dictContains cs m
              · rfl
              · exact absurd hdc hcn
            simp [hfalse, hmcw]
      · exact b2 m hm' hmcw
    · intro m v h
      exact b3 m v (hmono m v h)
    · intro m v h
      exact b4 m v (hsmono m v h)

theorem mem_wantedConsts (effConst : List String) (ops : List Op) (n : String) :
    n ∈ wantedConsts effConst ops ↔
      ∃ op ∈ ops, constKind effConst op = true ∧ headOutputName op = some n := by
  unfold wantedConsts
  rw [List.mem_filterMap]
  constructor
  · rintro ⟨op, hop, hh⟩
    rw [List.mem_filter] at hop
    exact ⟨op, hop.1, hop.2, hh⟩
  · rintro ⟨op, hop, hck, hh⟩
    exact ⟨op, List.mem_filter.mpr ⟨hop, hck⟩, hh⟩

/-- C4 (amended): during the single batched execution over the
concatenated wanted-shapes and wanted-consts lists, the constant
table receives exactly the first outputs of the operations of type
`Const` and of the operations of type `Dequantize` that are marked
effectively constant — keyed by tensor name, bound to the evaluated
value; an effectively-constant operation of any other type is not
materialized into the table. -/
theorem const_capture_correct (evalShape : String → List Nat) (evalVal : String → Int)
    (effConst : List String) (ops : List Op) (sd0 : List (String × List Nat)) :
    (∀ n, (∃ v, dictGet?
        (runBatch evalShape evalVal (collectWantedAux effConst ops sd0 [] []).1
          (collectWantedAux effConst ops sd0 [] []).2.1
          (collectWantedAux effConst ops sd0 [] []).2.2).2 n = some v) ↔
      ∃ op ∈ ops, constKind effConst op = true ∧ headOutputName op = some n) ∧
    (∀ n, (∃ op ∈ ops, constKind effConst op = true ∧ headOutputName op = some n) →
      dictGet?
        (runBatch evalShape evalVal (collectWantedAux effConst ops sd0 [] []).1
          (collectWantedAux effConst ops sd0 [] []).2.1
          (collectWantedAux effConst ops sd0 [] []).2.2).2 n
        = some (evalVal n)) := by
  have hcw : (collectWantedAux effConst ops sd0 [] []).2.2 = wantedConsts effConst ops := by
    rw [collectWantedAux_cw]
    simp
  obtain ⟨b1, b2, b3, b4⟩ := runBatchFold_spec evalShape evalVal
    (collectWantedAux effConst ops sd0 [] []).2.2
    ((collectWantedAux effConst ops sd0 [] []).2.1 ++ (collectWantedAux effConst ops sd0 [] []).2.2)
    (collectWantedAux effConst ops sd0 [] []).1 []
    (by intro m v h; cases h)
  constructor
  · intro n
    constructor
    · rintro ⟨v, hv⟩
      have := (b1 n v hv).1
      rw [hcw, mem_wantedConsts] at this
      exact this
    · intro hex
      have hn : n ∈ (collectWantedAux effConst ops sd0 [] []).2.2 := by
        rw [hcw, mem_wantedConsts]
        exact hex
      refine ⟨evalVal n, b2 n (List.mem_append.mpr (Or.inr hn)) hn⟩
  · intro n hex
    have hn : n ∈ (collectWantedAux effConst ops sd0 [] []).2.2 := by
      rw [hcw, mem_wantedConsts]
      exact hex
    exact b2 n (List.mem_append.mpr (Or.inr hn)) hn

/-- Operation of type `Add` marked effectively constant. -/
def opEff : Op := ⟨"e", "Add", [], [⟨"e:0", some [some 2]⟩]⟩

/-- C4 (counterexample): an effectively-constant operation that is not
of type `Const` or `Dequantize` is not materialized — after the full
static and execution passes, the constant table has no entry for its
output tensor, although the prober marked it effectively constant. -/
theorem const_capture_counterexample :
    opEff.name ∈ ["e"] ∧
    (runBatch (fun _ => [2]) (fun _ => 7)
        (collectWantedAux ["e"] [opEff] [] [] []).1
        (collectWantedAux ["e"] [opEff] [] [] []).2.1
        (collectWantedAux ["e"] [opEff] [] [] []).2.2).2 = [] ∧
    dictGet? (runBatch (fun _ => [2]) (fun _ => 7)
        (collectWantedAux ["e"] [opEff] [] [] []).1
        (collectWantedAux ["e"] [opEff] [] [] []).2.1
        (collectWantedAux ["e"] [opEff] [] [] []).2.2).2 "e:0" = none := by
  refine ⟨by decide, rfl, rfl⟩

theorem const_capture_correct_witness :
    ((∃ v, dictGet?
        (runBatch (fun _ => [2]) (fun _ => (7 : Int))
          (collectWantedAux [] [opA] [] [] []).1
          (collectWantedAux [] [opA] [] [] []).2.1
          (collectWantedAux [] [opA] [] [] []).2.2).2 "A:0" = some v) ↔
      ∃ op ∈ [opA], constKind [] op = true ∧ headOutputName op = some "A:0") ∧
    dictGet?
        (runBatch (fun _ => [2]) (fun _ => (7 : Int))
          (collectWantedAux [] [opA] [] [] []).1
          (collectWantedAux [] [opA] [] [] []).2.1
          (collectWantedAux [] [opA] [] [] []).2.2).2 "A:0" = some 7 := by
  have h := const_capture_correct (fun _ => [2]) (fun _ => (7 : Int)) [] [opA] []
  refine ⟨h.1 "A:0", ?_⟩
  exact h.2 "A:0" ⟨opA, by decide, by decide, by decide⟩

/-- Placeholder whose declared shape is fully defined but differs from
the caller-supplied override shape. -/
def phOver : Op := ⟨"x", "Placeholder", [], [⟨"x:0", some [some 2, some 10]⟩]⟩

/-- C6 (counterexample): the placeholder pass commits the override
shape [1, 10] for `x:0`, and the static-metadata pass then assigns the
declared shape [2, 10] for the same name unconditionally — the
committed entry is overwritten by a later stage of the same
conversion. -/
theorem shape_overwrite_counterexample :
    placeholderPassAux [("x:0", [1, 10])] [] [phOver] []
        = Except.ok [("x:0", [1, 10])] ∧
    (collectWantedAux [] [phOver] [("x:0", [1, 10])] [] []).1 = [("x:0", [2, 10])] ∧
    ([1, 10] : List Nat) ≠ [2, 10] := by
  refine ⟨rfl, rfl, by decide⟩

/-- C6 (amended): only the batched-execution pass inserts shapes
solely for names not already present — it never overwrites an
existing entry of the shape dictionary; the placeholder pass and the
static-metadata pass assign unconditionally, and the static pass can
overwrite a committed override shape with the declared shape. -/
theorem run_batch_no_overwrite (evalShape : String → List Nat) (evalVal : String → Int)
    (sd : List (String × List Nat)) (sw cw : List String) (n : String) (v : List Nat)
    (h : dictGet? sd n = some v) :
    dictGet? (runBatch evalShape evalVal sd sw cw).1 n = some v := by
  obtain ⟨_, _, _, b4⟩ := runBatchFold_spec evalShape evalVal cw (sw ++ cw) sd []
    (by intro m w hw; cases hw)
  exact b4 n v h

theorem run_batch_no_overwrite_witness :
    dictGet? (runBatch (fun _ => [9]) (fun _ => (0 : Int))
        [("a:0", [5])] ["a:0", "b:0"] []).1 "a:0" = some [5] := by
  exact run_batch_no_overwrite (fun _ => [9]) (fun _ => (0 : Int))
    [("a:0", [5])] ["a:0", "b:0"] [] "a:0" [5] rfl

/-! ## Boundary name canonicalization (claim C5)

Embedding of lines 439-458 of `_tf_coreml_converter.py`. -/

/-- Replacement of the reserved separators: every ':' and every '/' of
the name becomes a double underscore (the two single-character
`str.replace` calls of the source act character by character). -/
def canonicalizeName (s : String) : String :=
  ⟨(s.data.map (fun c => if c == ':' || c == '/' then ['_', '_'] else [c])).flatten⟩

/-- Lowered model description: input feature names, output feature
names, and for every layer its input and output blob names. -/
structure MLSpec where
  inputs : List String
  outputs : List String
  layers : List (List String × List String)
deriving DecidableEq, Repr

/-- Rewrite of one layer blob reference: only names appearing in the
collected interface list are canonicalized. -/
def rewriteRef (interfaceNames : List String) (n : String) : String :=
  if interfaceNames.contains n then canonicalizeName n else n

/-- Canonicalization pass: rename every input and output feature, and
every layer blob reference equal to one of the original interface
names. -/
def canonicalizeInterfaceNames (spec : MLSpec) : MLSpec :=
  let interfaceNames := spec.inputs ++ spec.outputs
  { inputs := spec.inputs.map canonicalizeName,
    outputs := spec.outputs.map canonicalizeName,
    layers := spec.layers.map (fun l =>
      (l.1.map (rewriteRef interfaceNames), l.2.map (rewriteRef interfaceNames))) }

/-- C5 (amended): the canonicalization rewrite is applied identically
to every occurrence of an interface name — position by position in
the input list, the output list, and every layer blob reference equal
to an interface name, the result is the single string
`canonicalizeName n` (referential consistency holds); however, no
collision detection exists: the pass is total and reports nothing. -/
theorem canonicalize_consistent (spec : MLSpec) :
    (canonicalizeInterfaceNames spec).inputs = spec.inputs.map canonicalizeName ∧
    (canonicalizeInterfaceNames spec).outputs = spec.outputs.map canonicalizeName ∧
    (canonicalizeInterfaceNames spec).layers = spec.layers.map (fun l =>
      (l.1.map (rewriteRef (spec.inputs ++ spec.outputs)),
       l.2.map (rewriteRef (spec.inputs ++ spec.outputs)))) ∧
    ∀ n, (spec.inputs ++ spec.outputs).contains n = true →
      rewriteRef (spec.inputs ++ spec.outputs) n = canonicalizeName n := by
  refine ⟨rfl, rfl, rfl, ?_⟩
  intro n h
  unfold rewriteRef
  rw [h]
  rfl

/-- C5 (counterexample): the two distinct original names `a:b` and
`a/b` collapse to the same rewritten name `a__b`, and the pass
performs the collapse silently — no detection, no report. -/
theorem canonicalize_collision_counterexample :
    ("a:b" ≠ "a/b") ∧
    canonicalizeName "a:b" = canonicalizeName "a/b" ∧
    canonicalizeInterfaceNames ⟨["a:b"], ["a/b"], [(["a:b"], ["a/b"])]⟩
      = ⟨["a__b"], ["a__b"], [(["a__b"], ["a__b"])]⟩ := by
  refine ⟨by decide, by decide, by decide⟩

theorem canonicalize_consistent_witness :
    rewriteRef (["in:0"] ++ ["out:0"]) "in:0" = canonicalizeName "in:0" ∧
    (canonicalizeInterfaceNames ⟨["in:0"], ["out:0"], [(["in:0"], ["out:0"])]⟩).inputs
      = ["in:0"].map canonicalizeName := by
  have h := canonicalize_consistent ⟨["in:0"], ["out:0"], [(["in:0"], ["out:0"])]⟩
  exact ⟨h.2.2.2 "in:0" (by decide), h.1⟩

/-! ## Determinism across invocations (claim C8) -/

/-- Modelled from the spec: the dual-probe effectively-constant
detection of section 4.2 (the code lives in
`_tf_graph_transform._find_unused_ops`, not under `src/`): the graph
is executed on two randomly drawn input assignments and a
non-constant operation whose output is identical across both runs is
marked effectively constant.  `evalOut` abstracts the output value of
an operation as a function of the drawn input value. -/
def dualProbeEffConst (evalOut : Op → Nat → Nat) (ops : List Op) (r1 r2 : Nat) :
    List String :=
  (ops.filter (fun op => op.type != "Const" && (evalOut op r1 == evalOut op r2))).map (·.name)

/-- Outcome of the conversion as a function of the graph, the
arguments, and the two randomly drawn probe inputs: the skip set
passed to the unsupported-operation check is the effectively-constant
set found by the dual probe (plus the unused set, empty here). -/
def conversionOutcome (registry : List String) (evalOut : Op → Nat → Nat)
    (ops : List Op) (outs : List String) (draws : Nat × Nat) : Except String Unit :=
  _check_unsupported_ops registry ops outs (dualProbeEffConst evalOut ops draws.1 draws.2)

/-- Unsupported operation whose output value equals the drawn input. -/
def opVar : Op := ⟨"u", "Weird", [], [⟨"u:0", some [some 1]⟩]⟩

/-- C8 (counterexample): the same graph and the same arguments, under
two different pairs of randomly drawn probe inputs, yield different
conversion outcomes — with equal draws the operation looks constant,
is skipped, and the conversion succeeds; with distinct draws it is
reported as unsupported.  The feeds are drawn fresh and unseeded at
every invocation, so two runs need not produce identical results. -/
theorem conversion_determinism_counterexample :
    conversionOutcome ["Identity"] (fun _ r => r) [opVar] ["u:0"] (5, 5)
        = Except.ok () ∧
    conversionOutcome ["Identity"] (fun _ r => r) [opVar] ["u:0"] (5, 6)
        = Except.error "Unsupported Ops of type: Weird" ∧
    conversionOutcome ["Identity"] (fun _ r => r) [opVar] ["u:0"] (5, 5)
        ≠ conversionOutcome ["Identity"] (fun _ r => r) [opVar] ["u:0"] (5, 6) := by
  refine ⟨rfl, rfl, ?_⟩
  intro h
  rw [show conversionOutcome ["Identity"] (fun _ r => r) [opVar] ["u:0"] (5, 5)
      = Except.ok () from rfl] at h
  rw [show conversionOutcome ["Identity"] (fun _ r => r) [opVar] ["u:0"] (5, 6)
      = Except.error "Unsupported Ops of type: Weird" from rfl] at h
  cases h

/-- C8 (amended): the conversion pipeline is deterministic as a
function of the frozen graph, the call arguments, and the randomly
drawn probe inputs: two invocations whose random draws coincide yield
the identical outcome.  Across invocations the unseeded draws may
differ, so determinism in the graph and arguments alone does not
hold. -/
theorem conversion_deterministic_given_draws (registry : List String)
    (evalOut : Op → Nat → Nat) (ops : List Op) (outs : List String)
    (d1 d2 : Nat × Nat) (h : d1 = d2) :
    conversionOutcome registry evalOut ops outs d1
      = conversionOutcome registry evalOut ops outs d2 := by
  rw [h]

theorem conversion_deterministic_given_draws_witness :
    conversionOutcome ["Identity"] (fun _ r => r) [opVar] ["u:0"] (5, 5)
      = conversionOutcome ["Identity"] (fun _ r => r) [opVar] ["u:0"] (5, 5) :=
  conversion_deterministic_given_draws ["Identity"] (fun _ r => r) [opVar] ["u:0"]
    (5, 5) (5, 5) rfl

/-! ## Missing requested-output check (claim C10)

Embedding of lines 137-158 and 336-356 of `_tf_coreml_converter.py`. -/

/-- Embedding of `_infer_coreml_output_shape`. -/
def _infer_coreml_output_shape (tfShape : List Nat) : Except String (Option (List Nat)) :=
  match tfShape with
  | [] => .ok (some [1])
  | [d0] => .ok (some [d0, 1, 1])
  | [d0, d1] => if d0 == 1 then .ok (some [d1]) else .ok none
  | [_, _, _] => .ok none
  | [_, d1, d2, d3] => .ok (some [d3, d1, d2])
  | _ => .error "Unrecognized TensorFlow output shape"

/-- Collection of the output features (lines 336-350): for every
operation, every output tensor whose name is requested contributes a
feature, with the Core ML shape inferred from the committed shape
dictionary. -/
def collectOutputFeaturesAux (sd : List (String × List Nat)) (outNames : List String) :
    List Op → List (String × Option (List Nat)) →
    Except String (List (String × Option (List Nat)))
  | [], acc => .ok acc
  | op :: rest, acc =>
    match (op.outputs.filter (fun t => outNames.contains t.name)).foldlM
        (fun (a : List (String × Option (List Nat))) t =>
          match dictGet? sd t.name with
          | none => Except.error "KeyError"
          | some tfShape =>
            match _infer_coreml_output_shape tfShape with
            | .error e => Except.error e
            | .ok s => Except.ok (a ++ [(t.name, s)])) acc with
    | .error e => .error e
    | .ok acc' => collectOutputFeaturesAux sd outNames rest acc'

/-- Message of the missing-output error (line 356). -/
def missingOutputMsg (name : String) : String :=
  "output name: " ++ name
    ++ ", was provided, but the Tensorflow graph does not contain a tensor with this name."

/-- Embedding of the check of lines 352-356: when the number of
collected output features differs from the number of requested
names, raise for the first requested name absent from the collected
features. -/
def checkMissingOutputs (collectedNames : List String) (outNames : List String) :
    Except String Unit :=
  if collectedNames.length != outNames.length then
    match outNames.find? (fun n => !(collectedNames.contains n)) with
    | some missing => .error (missingOutputMsg missing)
    | none => .ok ()
  else .ok ()

/-- Output stage of the pipeline: collect the output features (after
shape inference has committed the shape dictionary), run the
missing-output check, and only then hand over to the rest of the
pipeline (the unsupported-operation check and lowering). -/
def outputStage {α : Type} (sd : List (String × List Nat)) (ops : List Op)
    (outNames : List String)
    (next : List (String × Option (List Nat)) → Except String α) : Except String α :=
  match collectOutputFeaturesAux sd outNames ops [] with
  | .error e => .error e
  | .ok feats =>
    match checkMissingOutputs (feats.map (·.1)) outNames with
    | .error e => .error e
    | .ok _ => next feats

theorem collectOutputFeatures_inner (sd : List (String × List Nat)) :
    ∀ (ts : List TensorInfo) (a r : List (String × Option (List Nat))),
      ts.foldlM (fun (a : List (String × Option (List Nat))) t =>
          match dictGet? sd t.name with
          | none => Except.error "KeyError"
          | some tfShape =>
            match _infer_coreml_output_shape tfShape with
            | .error e => Except.error e
            | .ok s => Except.ok (a ++ [(t.name, s)])) a = Except.ok r →
      r.map (·.1) = a.map (·.1) ++ ts.map (·.name) := by
  intro ts
  induction ts with
  | nil =>
    intro a r h
    rw [List.foldlM_nil] at h
    injection h with h
    subst h
    simp
  | cons t ts ih =>
    intro a r h
    rw [List.foldlM_cons] at h
    split at h
    · cases h
    · split at h
      · cases h
      · rename_i tfShape hg s hi
        have h' : ts.foldlM (fun (a : List (String × Option (List Nat))) t =>
            match dictGet? sd t.name with
            | none => Except.error "KeyError"
            | some tfShape =>
              match _infer_coreml_output_shape tfShape with
              | .error e => Except.error e
              | .ok s => Except.ok (a ++ [(t.name, s)])) (a ++ [(t.name, s)])
            = Except.ok r := h
        rw [ih (a ++ [(t.name, s)]) r h']
        simp

theorem collectOutputFeatures_names (sd : List (String × List Nat)) (outNames : List String) :
    ∀ (ops : List Op) (acc feats : List (String × Option (List Nat))),
      collectOutputFeaturesAux sd outNames ops acc = Except.ok feats →
      feats.map (·.1) = acc.map (·.1)
        ++ ops.flatMap (fun op => (opOutputNames op).filter (fun n => outNames.contains n)) := by
  intro ops
  induction ops with
  | nil =>
    intro acc feats h
    injection h with h
    subst h
    simp
  | cons op rest ih =>
    intro acc feats h
    unfold collectOutputFeaturesAux at h
    cases hf : (op.outputs.filter (fun t => outNames.contains t.name)).foldlM
        (fun (a : List (String × Option (List Nat))) t =>
          match dictGet? sd t.name with
          | none => Except.error "KeyError"
          | some tfShape =>
            match _infer_coreml_output_shape tfShape with
            | .error e => Except.error e
            | .ok s => Except.ok (a ++ [(t.name, s)])) acc with
    | error e =>
      rw [hf] at h
      cases h
    | ok acc' =>
      rw [hf] at h
      have hinner := collectOutputFeatures_inner sd _ acc acc' hf
      rw [ih acc' feats h, hinner]
      have hnames : (op.outputs.filter (fun t => outNames.contains t.name)).map (·.name)
          = (opOutputNames op).filter (fun n => outNames.contains n) := by
        unfold opOutputNames
        rw [List.filter_map]
        rfl
      rw [hnames]
      simp [List.flatMap_cons]

theorem flatMap_filter_eq (p : String → Bool) :
    ∀ (ops : List Op), ops.flatMap (fun op => (opOutputNames op).filter p)
      = (ops.flatMap opOutputNames).filter p := by
  intro ops
  induction ops with
  | nil => simp
  | cons op rest ih => simp [List.flatMap_cons, List.filter_append, ih]

/-- C10: if some requested output name matches no output tensor of any
operation (output tensor names of the graph being pairwise distinct),
the output stage fails with a ValueError naming a missing requested
name — the first such name in the requested list — after the output
features have been collected and before the rest of the pipeline (the
unsupported-operation check and lowering) runs. -/
theorem missing_output_check_correct (sd : List (String × List Nat)) (ops : List Op)
    (outNames : List String) (feats : List (String × Option (List Nat)))
    (hok : collectOutputFeaturesAux sd outNames ops [] = Except.ok feats)
    (hnodup : (ops.flatMap opOutputNames).Nodup)
    (hmiss : ∃ n ∈ outNames, ∀ op ∈ ops, n ∉ opOutputNames op) :
    ∃ m, m ∈ outNames ∧ (∀ op ∈ ops, m ∉ opOutputNames op) ∧
      ∀ (α : Type) (next : List (String × Option (List Nat)) → Except String α),
        outputStage sd ops outNames next = Except.error (missingOutputMsg m) := by
  have hnames : feats.map (·.1)
      = (ops.flatMap opOutputNames).filter (fun n => outNames.contains n) := by
    rw [collectOutputFeatures_names sd outNames ops [] feats hok]
    simp [flatMap_filter_eq]
  obtain ⟨n0, hn0mem, hn0not⟩ := hmiss
  have hnotin : ∀ m, (∀ op ∈ ops, m ∉ opOutputNames op) → m ∉ feats.map (·.1) := by
    intro m hnot hin
    rw [hnames, List.mem_filter] at hin
    obtain ⟨op, hop, hmm⟩ := List.mem_flatMap.mp hin.1
    exact hnot op hop hmm
  have hsub : ∀ x ∈ feats.map (·.1), x ∈ outNames := by
    intro x hx
    rw [hnames, List.mem_filter] at hx
    simpa using hx.2
  have hnd : (feats.map (·.1)).Nodup := by
    rw [hnames]
    exact hnodup.filter _
  have hn0names : n0 ∉ feats.map (·.1) := hnotin n0 hn0not
  have hsubfin : (feats.map (·.1)).toFinset ⊆ outNames.toFinset.erase n0 := by
    intro x hx
    rw [List.mem_toFinset] at hx
    rw [Finset.mem_erase]
    refine ⟨?_, List.mem_toFinset.mpr (hsub x hx)⟩
    intro he
    rw [he] at hx
    exact hn0names hx
  have hlen : (feats.map (·.1)).length < outNames.length := by
    calc (feats.map (·.1)).length = (feats.map (·.1)).toFinset.card :=
          (List.toFinset_card_of_nodup hnd).symm
      _ ≤ (outNames.toFinset.erase n0).card := Finset.card_le_card hsubfin
      _ < outNames.toFinset.card := Finset.card_erase_lt_of_mem (List.mem_toFinset.mpr hn0mem)
      _ ≤ outNames.length := outNames.toFinset_card_le
  have hbne : ((feats.map (·.1)).length != outNames.length) = true := by
    have hne : (feats.map (·.1)).length ≠ outNames.length := Nat.ne_of_lt hlen
    simpa using hne
  have hfind : (outNames.find? (fun n => !((feats.map (·.1)).contains n))).isSome := by
    rw [List.find?_isSome]
    exact ⟨n0, hn0mem, by simpa using hn0names⟩
  obtain ⟨m, hm⟩ := Option.isSome_iff_exists.mp hfind
  have hmmem : m ∈ outNames := List.mem_of_find?_eq_some hm
  have hmp := List.find?_some hm
  have hmnotnames : m ∉ feats.map (·.1) := by simpa using hmp
  have hmnot : ∀ op ∈ ops, m ∉ opOutputNames op := by
    intro op hop hmo
    apply hmnotnames
    rw [hnames, List.mem_filter]
    refine ⟨List.mem_flatMap.mpr ⟨op, hop, hmo⟩, by simpa using hmmem⟩
  refine ⟨m, hmmem, hmnot, ?_⟩
  intro α next
  unfold outputStage
  rw [hok]
  show (match checkMissingOutputs (feats.map (·.1)) outNames with
    | .error e => (.error e : Except String α)
    | .ok _ => next feats) = Except.error (missingOutputMsg m)
  have hcheck : checkMissingOutputs (feats.map (·.1)) outNames
      = Except.error (missingOutputMsg m) := by
    unfold checkMissingOutputs
    rw [if_pos hbne, hm]
  rw [hcheck]

theorem missing_output_check_correct_witness :
    outputStage [("A:0", [2, 3])] [opA] ["A:0", "missing:0"]
        (fun feats => Except.ok feats.length)
      = Except.error (missingOutputMsg "missing:0") := by
  obtain ⟨m, hmem, hnot, hall⟩ := missing_output_check_correct [("A:0", [2, 3])] [opA]
    ["A:0", "missing:0"] [("A:0", none)] rfl (by decide)
    ⟨"missing:0", by decide, by decide⟩
  rcases List.mem_cons.mp hmem with rfl | hmem'
  · exact absurd (by decide : "A:0" ∈ opOutputNames opA) (hnot opA (by decide))
  · rcases List.mem_cons.mp hmem' with rfl | hmem''
    · exact hall Nat (fun feats => Except.ok feats.length)
    · cases hmem''
